import Mathlib

/-!
Shallow embedding of `src/js/utils.js` (historian.utils) and verification of
its specification claims.

Modelling conventions:
- JavaScript numbers are modelled as exact rationals (`ℚ`); all values that
  the claims quantify over are integral milliseconds, where double arithmetic
  is exact.
- Where JavaScript arithmetic can produce the non-finite values
  `Infinity` / `-Infinity` / `NaN` (division by zero in
  `calculateTotalCharge`), we use the type `JSNum` which carries those values
  explicitly.
- JavaScript strings are modelled as `List Nat` (UTF-16 code units) where
  character-level behaviour matters (`toValidID`), and as Lean `String` for
  formatted output.
- Fallible code (the `goog.asserts.assert` in `calculateTotalCharge`) is
  modelled with `Option`: `none` is an assertion failure.
- `goog.array.binarySearch` is modelled operationally, with the loop's
  iteration structure kept intact (a fuel argument bounds the iteration
  count; `fuel = arr.length` is enough for the loop to reach `left = right`,
  which the correctness lemma below proves).
-/

namespace Historian

/-- An entry of the time series: a half-open interval `[startTime, endTime)`
carrying a numeric value (`historian.Entry`). -/
structure Entry where
  startTime : ℚ
  endTime : ℚ
  value : ℚ
deriving DecidableEq, Repr

instance : Inhabited Entry := ⟨⟨0, 0, 0⟩⟩

/-- Modelled from the spec: `historian.time.MSECS_IN_SEC`, the number of
milliseconds in a second (the `historian.time` module is not under `src/`;
the spec describes durations in seconds and rates per hour). -/
def MSECS_IN_SEC : ℚ := 1000

/-- Modelled from the spec: `historian.time.SECS_IN_MIN`. -/
def SECS_IN_MIN : ℚ := 60

/-- Modelled from the spec: `historian.time.MINS_IN_HOUR`. -/
def MINS_IN_HOUR : ℚ := 60

/-- Modelled from the spec: `historian.time.MSECS_IN_HOUR`, the number of
milliseconds in an hour (used by `generateDerivative`, "value-per-hour"). -/
def MSECS_IN_HOUR : ℚ := 3600000

/-- A JavaScript number that may be non-finite: finite rational, `Infinity`,
`-Infinity`, or `NaN`. -/
inductive JSNum where
  | fin : ℚ → JSNum
  | posInf : JSNum
  | negInf : JSNum
  | nan : JSNum
deriving DecidableEq, Repr

/-- JavaScript addition on possibly non-finite numbers. -/
def jsAdd : JSNum → JSNum → JSNum
  | JSNum.nan, _ => JSNum.nan
  | _, JSNum.nan => JSNum.nan
  | JSNum.fin a, JSNum.fin b => JSNum.fin (a + b)
  | JSNum.fin _, JSNum.posInf => JSNum.posInf
  | JSNum.fin _, JSNum.negInf => JSNum.negInf
  | JSNum.posInf, JSNum.fin _ => JSNum.posInf
  | JSNum.negInf, JSNum.fin _ => JSNum.negInf
  | JSNum.posInf, JSNum.posInf => JSNum.posInf
  | JSNum.negInf, JSNum.negInf => JSNum.negInf
  | JSNum.posInf, JSNum.negInf => JSNum.nan
  | JSNum.negInf, JSNum.posInf => JSNum.nan

/-- JavaScript division of a possibly non-finite number by a finite number
(the only divisions occurring in `calculateTotalCharge` have finite
divisors). `x / 0` yields `Infinity`, `-Infinity` or `NaN` according to the
sign of `x`, as in JavaScript (ℚ has no negative zero). -/
def jsDivFin : JSNum → ℚ → JSNum
  | JSNum.nan, _ => JSNum.nan
  | JSNum.posInf, b => if b < 0 then JSNum.negInf else JSNum.posInf
  | JSNum.negInf, b => if b < 0 then JSNum.posInf else JSNum.negInf
  | JSNum.fin a, b =>
      if b = 0 then
        if a = 0 then JSNum.nan
        else if a > 0 then JSNum.posInf
        else JSNum.negInf
      else JSNum.fin (a / b)

/-- The `data.forEach` loop of `calculateTotalCharge`: accumulates
`total += d.value / hz` where `hz = (durationMs != 0) ? MSECS_IN_SEC / durationMs : 0`,
and fails (`none`, the `goog.asserts.assert`) on the first entry with
negative duration. -/
def totalChargeLoop : List Entry → JSNum → Option JSNum
  | [], total => some total
  | d :: rest, total =>
      let durationMs := d.endTime - d.startTime
      if 0 ≤ durationMs then
        let hz : ℚ := if durationMs ≠ 0 then MSECS_IN_SEC / durationMs else 0
        totalChargeLoop rest (jsAdd total (jsDivFin (JSNum.fin d.value) hz))
      else none

/-- `exports.calculateTotalCharge` (utils.js lines 159-173): total charge in
mAh; `none` models the assertion error on a negative-duration entry. -/
def calculateTotalCharge (data : List Entry) : Option JSNum :=
  (totalChargeLoop data (JSNum.fin 0)).map
    (fun total => jsDivFin total (SECS_IN_MIN * MINS_IN_HOUR))

/-- Helper for `Number.prototype.toFixed(2)` on a non-negative scaled
integer `n` (value times 100, already rounded): digits with two decimals. -/
def toFixed2Nat (n : Nat) : String :=
  let ip := n / 100
  let fp := n % 100
  Nat.repr ip ++ "." ++ (if fp < 10 then "0" ++ Nat.repr fp else Nat.repr fp)

/-- `Number.prototype.toFixed(2)` on an exact rational: round to the nearest
multiple of 1/100, ties toward the larger value (ECMAScript chooses the
larger candidate integer), negative values formatted with a leading sign. -/
def toFixed2 (q : ℚ) : String :=
  if q < 0 then "-" ++ toFixed2Nat (Int.toNat ⌊-q * 100 + 1 / 2⌋)
  else toFixed2Nat (Int.toNat ⌊q * 100 + 1 / 2⌋)

/-- `Number.prototype.toFixed(2)` extended to non-finite values as in
JavaScript. -/
def jsNumToFixed2 : JSNum → String
  | JSNum.fin q => toFixed2 q
  | JSNum.posInf => "Infinity"
  | JSNum.negInf => "-Infinity"
  | JSNum.nan => "NaN"

/-- `exports.calculateTotalChargeFormatted` (utils.js lines 181-183). -/
def calculateTotalChargeFormatted (data : List Entry) : Option String :=
  (calculateTotalCharge data).map jsNumToFixed2

/-- `exports.generateDerivative` (utils.js lines 297-313): one rate-of-change
entry per consecutive pair of input entries. -/
def generateDerivative : List Entry → List Entry
  | [] => []
  | [_] => []
  | cur :: next :: rest =>
      let dy := next.value - cur.value
      let dx := (next.startTime - cur.startTime) / MSECS_IN_HOUR
      { startTime := cur.startTime, endTime := next.startTime,
        value := if dx = 0 then 0 else dy / dx } :: generateDerivative (next :: rest)

/-- `exports.describeBytes` (utils.js lines 130-140). -/
def describeBytes (bytes : ℚ) : String :=
  if bytes < 1024 / 2 then toFixed2 bytes ++ " bytes"
  else if bytes < 1024 * 1024 / 2 then toFixed2 (bytes / 1024) ++ " KB"
  else if bytes < 1024 * 1024 * 1024 / 2 then toFixed2 (bytes / (1024 * 1024)) ++ " MB"
  else toFixed2 (bytes / (1024 * 1024 * 1024)) ++ " GB"

/-- The character class of the regular expression `/[^a-z0-9_\-]/i` in
`toValidID`: ASCII letters (either case), digits, underscore, hyphen.
Characters are UTF-16 code units (`Nat`). -/
def isIDChar (c : Nat) : Bool :=
  decide ((97 ≤ c ∧ c ≤ 122) ∨ (65 ≤ c ∧ c ≤ 90) ∨ (48 ≤ c ∧ c ≤ 57) ∨ c = 95 ∨ c = 45)

/-- ASCII lower-casing of a UTF-16 code unit. `String.prototype.toLowerCase`
in `toValidID` is only ever applied to characters kept by `isIDChar`, all of
which are ASCII, where full Unicode lower-casing agrees with this map. -/
def asciiToLower (c : Nat) : Nat := if 65 ≤ c ∧ c ≤ 90 then c + 32 else c

/-- `exports.toValidID` (utils.js lines 149-151):
`str.replace(/[^a-z0-9_\-]/ig, '').toLowerCase()` over UTF-16 code units. -/
def toValidID (s : List Nat) : List Nat :=
  (s.filter isIDChar).map asciiToLower

/-- `exports.intersectLineSeg` (utils.js lines 54-63), over exact rational
coordinates. -/
def intersectLineSeg (a b c d : ℚ × ℚ) : Bool :=
  let ab := (b.1 - a.1, b.2 - a.2)
  let ac := (c.1 - a.1, c.2 - a.2)
  let ad := (d.1 - a.1, d.2 - a.2)
  let crosscb := ac.2 * ab.1 - ac.1 * ab.2
  let crossbd := ab.2 * ad.1 - ab.1 * ad.2
  let eps : ℚ := 1 / 1000000000
  if |crosscb| ≤ eps ∨ |crossbd| ≤ eps then true
  else decide (crosscb * crossbd > 0)

/-- `exports.intersectSegSeg` (utils.js lines 76-79). -/
def intersectSegSeg (a b c d : ℚ × ℚ) : Bool :=
  intersectLineSeg a b c d && intersectLineSeg c d a b

/-- The `goog.math.Range` constructor: normalizes its two arguments into an
ordered pair `(min, max)`. -/
def mkRange (a b : ℚ) : ℚ × ℚ := (min a b, max a b)

/-- `goog.math.Range.hasIntersection`: the closed ranges share at least one
point. -/
def hasIntersection (r1 r2 : ℚ × ℚ) : Bool :=
  decide (max r1.1 r2.1 ≤ min r1.2 r2.2)

/-- `exports.inTimeRangeMulti` (utils.js lines 198-205): linear filter; an
entry is kept when its range intersects the query range and neither boundary
of the query coincides with the touching boundary of the entry. -/
def inTimeRangeMulti (startTime endTime : ℚ) (data : List Entry) : List Entry :=
  let range := mkRange startTime endTime
  data.filter (fun d =>
    hasIntersection range (mkRange d.startTime d.endTime) &&
      decide (endTime ≠ d.startTime) && decide (startTime ≠ d.endTime))

/-- The loop of `goog.array.binarySearch_`: `left`/`right` bracket the search,
`middle = (left + right) >> 1`, a positive comparison moves `left` past
`middle`, otherwise `right` moves to `middle` and `found` records whether the
comparison was an exact match; on exit the result is `left` when found and
`-left - 1` otherwise. `cmp d` is `compareFn(target, d)`. The structural
`fuel` argument bounds the number of iterations; the loop reaches
`left = right` within `arr.length` iterations, and the exhaustion branch
returns the same expression as the exit branch. -/
def binarySearchLoop (cmp : Entry → ℚ) (arr : List Entry) :
    Nat → Nat → Nat → Bool → Int
  | 0, left, _, found => if found then (left : Int) else -(left : Int) - 1
  | fuel + 1, left, right, found =>
      if left < right then
        let middle := (left + right) / 2
        let c := cmp (arr.getD middle default)
        if c > 0 then binarySearchLoop cmp arr fuel (middle + 1) right found
        else binarySearchLoop cmp arr fuel left middle (decide (c = 0))
      else if found then (left : Int) else -(left : Int) - 1

/-- `goog.array.binarySearch(arr, target, compareFn)` with
`cmp = compareFn(target, ·)`: lowest index of an exact match, or
`-(insertion point) - 1`. -/
def binarySearch (arr : List Entry) (cmp : Entry → ℚ) : Int :=
  binarySearchLoop cmp arr arr.length 0 arr.length false

/-- `goog.array.slice(arr, start, end)` for non-negative indices: the
elements in positions `[start, end)`, indices clamped to the array. -/
def jsSlice (l : List Entry) (s e : Nat) : List Entry :=
  (l.take e).drop s

/-- `exports.inTimeRange` (utils.js lines 220-258): empty-input and
fast-rejection checks, then a binary search on `startTime` for the query
start (stepping one entry back on a miss unless the insertion point is 0), a
binary search on `endTime` for the query end (insertion point kept on a
miss), and a slice with inclusive end index. -/
def inTimeRange (startTime endTime : ℚ) (data : List Entry) : List Entry :=
  if data.isEmpty then []
  else if startTime ≥ (data.getD (data.length - 1) default).endTime ∨
      endTime ≤ (data.getD 0 default).startTime then []
  else
    let startIndex0 := binarySearch data (fun d => startTime - d.startTime)
    let startIndex : Int :=
      if startIndex0 < 0 then
        let i := -(startIndex0 + 1)
        if i ≠ 0 then i - 1 else i
      else startIndex0
    let endIndex0 := binarySearch data (fun d => endTime - d.endTime)
    let endIndex : Int := if endIndex0 < 0 then -(endIndex0 + 1) else endIndex0
    jsSlice data startIndex.toNat (endIndex + 1).toNat

/-- Number of entries at the front of the list whose key `f` is below `t`:
for data sorted on `f` this is the insertion point of `t` (the lowest index
whose key is not below `t`), and the lowest index of an exact match when one
exists. -/
def lowerBound (f : Entry → ℚ) (t : ℚ) : List Entry → Nat
  | [] => 0
  | d :: rest => if f d < t then lowerBound f t rest + 1 else 0

/-- Modelled from the spec: steps 3-5 of the `filter` algorithm (spec §4.1),
stated denotationally. The start index is the binary-search result on
`startTime`: the matching index on a hit, otherwise one before the insertion
index (except insertion index 0). The end index is the matching index on a
hit and the insertion index on a miss — both equal `lowerBound` for sorted
data. The result is the slice through the end index, inclusive. -/
def specFilter (s e : ℚ) (data : List Entry) : List Entry :=
  let p := lowerBound (fun d => d.startTime) s data
  let startIndex : Nat :=
    if p < data.length ∧ (data.getD p default).startTime = s then p
    else if p = 0 then 0 else p - 1
  let endIndex : Nat := lowerBound (fun d => d.endTime) e data
  jsSlice data startIndex (endIndex + 1)

/-- Start time of the entry at index `i`. -/
def sAt (data : List Entry) (i : Nat) : ℚ := (data.getD i default).startTime

/-- End time of the entry at index `i`. -/
def eAt (data : List Entry) (i : Nat) : ℚ := (data.getD i default).endTime

/-- The documented precondition of `inTimeRange` as the claims state it:
entries are well-formed intervals and each entry's end time equals or
precedes the next entry's start time (hence the list is sorted ascending by
start time, non-overlapping, and contiguous in the spec's sense,
which permits gaps and zero-width entries). -/
def wellFormed (data : List Entry) : Prop :=
  (∀ i, i < data.length → sAt data i ≤ eAt data i) ∧
    (∀ i, i + 1 < data.length → eAt data i ≤ sAt data (i + 1))

/-- The strengthened precondition: every entry has positive width and each
entry's end time equals (not merely precedes) the next entry's start
time. -/
def strictWF (data : List Entry) : Prop :=
  (∀ i, i < data.length → sAt data i < eAt data i) ∧
    (∀ i, i + 1 < data.length → eAt data i = sAt data (i + 1))

/-- The concrete data sequence of the spec's scenario. -/
def data3 : List Entry := [⟨0, 10, 0⟩, ⟨10, 20, 0⟩, ⟨20, 30, 0⟩]

/-- A two-entry data sequence with a gap between the entries: the first ends
at 10, the second starts at 20. It satisfies the documented precondition
(sorted, non-overlapping, each end time at or before the next start time). -/
def dataGap : List Entry := [⟨0, 10, 0⟩, ⟨20, 30, 0⟩]

/-! Lemmas about `generateDerivative` (claim C7). -/

/-- Length of the derivative sequence: one entry per consecutive pair. -/
theorem generateDerivative_length :
    ∀ data : List Entry, (generateDerivative data).length = data.length - 1
  | [] => rfl
  | [_] => rfl
  | a :: b :: rest => by
      have ih := generateDerivative_length (b :: rest)
      simp only [generateDerivative, List.length_cons] at ih ⊢
      omega

/-- The entry at index `i` of the derivative sequence, stated the way the
spec describes it: interval from `data[i].startTime` to `data[i+1].startTime`,
value 0 when the two start times coincide and `dy / dx` (with `dx` the time
difference in hours) otherwise. -/
theorem generateDerivative_getD :
    ∀ (data : List Entry) (i : Nat), i + 1 < data.length →
      (generateDerivative data).getD i default =
        { startTime := sAt data i, endTime := sAt data (i + 1),
          value := if sAt data (i + 1) = sAt data i then 0
            else ((data.getD (i + 1) default).value - (data.getD i default).value) /
              ((sAt data (i + 1) - sAt data i) / MSECS_IN_HOUR) }
  | [], i, h => by simp at h
  | [_], i, h => by simp at h
  | a :: b :: rest, 0, _ => by
      simp only [generateDerivative, List.getD_cons_zero, sAt, List.getD_cons_succ]
      by_cases hd : b.startTime = a.startTime
      · simp [hd, MSECS_IN_HOUR]
      · have hsub : b.startTime - a.startTime ≠ 0 := fun heq => hd (by linarith [sub_eq_zero.mp heq])
        have hdx : (b.startTime - a.startTime) / MSECS_IN_HOUR ≠ 0 := by
          rw [div_ne_zero_iff]
          exact ⟨hsub, by norm_num [MSECS_IN_HOUR]⟩
        simp [hd, hdx, sub_eq_zero]
  | a :: b :: rest, i + 1, h => by
      have ih := generateDerivative_getD (b :: rest) i (by simp at h ⊢; omega)
      simpa only [generateDerivative, List.getD_cons_succ, sAt] using ih

/-- C7: for every non-empty data sequence, `generateDerivative` yields
`data.length - 1` entries (empty and singleton inputs yield the empty
sequence), and the `i`-th output entry runs from `data[i].startTime` to
`data[i+1].startTime` with value 0 when the two start times are equal and
the value difference divided by the time difference in hours otherwise. -/
theorem generateDerivative_spec :
    generateDerivative ([] : List Entry) = [] ∧
    (∀ data : List Entry, data ≠ [] →
      (generateDerivative data).length = data.length - 1) ∧
    (∀ (data : List Entry) (i : Nat), i + 1 < data.length →
      (generateDerivative data).getD i default =
        { startTime := sAt data i, endTime := sAt data (i + 1),
          value := if sAt data (i + 1) = sAt data i then 0
            else ((data.getD (i + 1) default).value - (data.getD i default).value) /
              ((sAt data (i + 1) - sAt data i) / MSECS_IN_HOUR) }) :=
  ⟨rfl, fun data _ => generateDerivative_length data, generateDerivative_getD⟩

/-- C7 witness: the theorem applied to the spec's concrete three-entry data
at index 0. -/
theorem generateDerivative_spec_witness :
    (generateDerivative data3).length = data3.length - 1 ∧
    (generateDerivative data3).getD 0 default =
      { startTime := sAt data3 0, endTime := sAt data3 1,
        value := if sAt data3 1 = sAt data3 0 then 0
          else ((data3.getD 1 default).value - (data3.getD 0 default).value) /
            ((sAt data3 1 - sAt data3 0) / MSECS_IN_HOUR) } :=
  ⟨generateDerivative_spec.2.1 data3 (by decide),
   generateDerivative_spec.2.2 data3 0 (by decide)⟩

/-! Characterization of `goog.array.binarySearch` via `lowerBound`. -/

/-- The insertion point never exceeds the length. -/
theorem lowerBound_le_length (f : Entry → ℚ) (t : ℚ) :
    ∀ data : List Entry, lowerBound f t data ≤ data.length
  | [] => Nat.le_refl 0
  | d :: rest => by
      simp only [lowerBound]
      split
      · simpa using lowerBound_le_length f t rest
      · simp

/-- Every index below the insertion point has key below the target. -/
theorem lowerBound_lt (f : Entry → ℚ) (t : ℚ) :
    ∀ (data : List Entry) (i : Nat), i < lowerBound f t data →
      f (data.getD i default) < t
  | [], i, h => by simp [lowerBound] at h
  | d :: rest, i, h => by
      simp only [lowerBound] at h
      split at h
      · rename_i hd
        cases i with
        | zero => simpa using hd
        | succ j =>
            have := lowerBound_lt f t rest j (Nat.lt_of_succ_lt_succ h)
            simpa using this
      · omega

/-- At the insertion point itself (when in range) the key is at or above the
target. -/
theorem lowerBound_stop (f : Entry → ℚ) (t : ℚ) :
    ∀ data : List Entry, lowerBound f t data < data.length →
      t ≤ f (data.getD (lowerBound f t data) default)
  | [], h => by simp at h
  | d :: rest, h => by
      by_cases hd : f d < t
      · simp only [lowerBound, if_pos hd] at h ⊢
        simpa using lowerBound_stop f t rest (by simpa using h)
      · simp only [lowerBound, if_neg hd] at h ⊢
        simpa using not_lt.mp hd

/-- Any position with all keys below the target before it and all keys at or
above the target from it on is the insertion point. No sortedness is
needed. -/
theorem lowerBound_unique (f : Entry → ℚ) (t : ℚ) (data : List Entry) (p : Nat)
    (hp : p ≤ data.length)
    (hA : ∀ i, i < p → f (data.getD i default) < t)
    (hB : ∀ i, p ≤ i → i < data.length → t ≤ f (data.getD i default)) :
    lowerBound f t data = p := by
  rcases Nat.lt_trichotomy (lowerBound f t data) p with h | h | h
  · have h1 := hA _ h
    have h2 := lowerBound_stop f t data (lt_of_lt_of_le h hp)
    linarith
  · exact h
  · have h1 := lowerBound_lt f t data p h
    have h2 := hB p (le_refl p) (lt_of_lt_of_le h (lowerBound_le_length f t data))
    linarith

/-- Correctness of the search loop: given a position `p` that separates keys
below the target from keys at or above it, any loop state bracketing `p`
whose `found` flag already says whether `right` is an exact match ends at
`p`, found there exactly when `p` holds the target. This needs no sortedness
hypothesis beyond the separator `p` itself. -/
theorem binarySearchLoop_eq (f : Entry → ℚ) (t : ℚ) (arr : List Entry) (p : Nat)
    (hA : ∀ i, i < p → f (arr.getD i default) < t)
    (hB : ∀ i, p ≤ i → i < arr.length → t ≤ f (arr.getD i default)) :
    ∀ (fuel l r : Nat) (found : Bool), l ≤ p → p ≤ r → r ≤ arr.length →
      r - l ≤ fuel →
      (found = true ↔ (r < arr.length ∧ f (arr.getD r default) = t)) →
      binarySearchLoop (fun d => t - f d) arr fuel l r found =
        (if p < arr.length ∧ f (arr.getD p default) = t then (p : Int)
         else -(p : Int) - 1)
  | 0, l, r, found, hlp, hpr, hrn, hfuel, hfound => by
      have h1 : r = p := by omega
      have h2 : l = p := by omega
      subst h1
      subst h2
      simp only [binarySearchLoop]
      by_cases hf : found = true
      · rw [if_pos (by exact_mod_cast hf), if_pos (hfound.mp hf)]
      · rw [if_neg (by simpa using hf), if_neg (fun hc => hf (hfound.mpr hc))]
  | fuel + 1, l, r, found, hlp, hpr, hrn, hfuel, hfound => by
      simp only [binarySearchLoop]
      by_cases hlr : l < r
      · rw [if_pos hlr]
        have hlm : l ≤ (l + r) / 2 := by omega
        have hmr : (l + r) / 2 < r := by omega
        by_cases hc : t - f (arr.getD ((l + r) / 2) default) > 0
        · rw [if_pos hc]
          have hkm : f (arr.getD ((l + r) / 2) default) < t := by linarith
          have hmp : (l + r) / 2 + 1 ≤ p := by
            by_contra hcon
            push_neg at hcon
            have := hB ((l + r) / 2) (by omega) (by omega)
            linarith
          exact binarySearchLoop_eq f t arr p hA hB fuel ((l + r) / 2 + 1) r found
            hmp hpr hrn (by omega) hfound
        · rw [if_neg hc]
          have hkm : t ≤ f (arr.getD ((l + r) / 2) default) := by
            have := not_lt.mp hc
            linarith
          have hpm : p ≤ (l + r) / 2 := by
            by_contra hcon
            push_neg at hcon
            have := hA ((l + r) / 2) hcon
            linarith
          refine binarySearchLoop_eq f t arr p hA hB fuel l ((l + r) / 2) _
            hlp hpm (by omega) (by omega) ?_
          constructor
          · intro hd
            have hz : t - f (arr.getD ((l + r) / 2) default) = 0 := of_decide_eq_true hd
            exact ⟨by omega, by linarith⟩
          · rintro ⟨_, hkeq⟩
            apply decide_eq_true
            rw [hkeq]
            ring
      · rw [if_neg hlr]
        have h1 : r = p := by omega
        have h2 : l = p := by omega
        subst h1
        subst h2
        by_cases hf : found = true
        · rw [if_pos (by exact_mod_cast hf), if_pos (hfound.mp hf)]
        · rw [if_neg (by simpa using hf), if_neg (fun hc => hf (hfound.mpr hc))]

/-- `goog.array.binarySearch` on data sorted by the key `f`: the lowest
index of an exact match, or minus the insertion point minus one. -/
theorem binarySearch_eq (f : Entry → ℚ) (t : ℚ) (data : List Entry)
    (hmono : ∀ i j, i ≤ j → j < data.length →
      f (data.getD i default) ≤ f (data.getD j default)) :
    binarySearch data (fun d => t - f d) =
      (if lowerBound f t data < data.length ∧
          f (data.getD (lowerBound f t data) default) = t
       then (lowerBound f t data : Int) else -(lowerBound f t data : Int) - 1) := by
  unfold binarySearch
  refine binarySearchLoop_eq f t data (lowerBound f t data)
    (fun i hi => lowerBound_lt f t data i hi) ?_ data.length 0 data.length false
    (Nat.zero_le _) (lowerBound_le_length f t data) (le_refl _) (by omega) ?_
  · intro i hle hlt
    exact le_trans (lowerBound_stop f t data (lt_of_le_of_lt hle hlt))
      (hmono _ i hle hlt)
  · constructor
    · intro h
      cases h
    · rintro ⟨h1, _⟩
      omega

/-! Monotonicity consequences of the preconditions. -/

/-- Well-formed data has nondecreasing start times. -/
theorem wf_sAt_mono (data : List Entry) (h : wellFormed data) :
    ∀ i j, i ≤ j → j < data.length → sAt data i ≤ sAt data j := by
  intro i j hij hj
  induction hij with
  | refl => exact le_refl _
  | @step j hij ih =>
      have h1 : sAt data i ≤ sAt data j := ih (by omega)
      have h2 : sAt data j ≤ eAt data j := h.1 j (by omega)
      have h3 : eAt data j ≤ sAt data (j + 1) := h.2 j hj
      linarith

/-- Well-formed data has nondecreasing end times. -/
theorem wf_eAt_mono (data : List Entry) (h : wellFormed data) :
    ∀ i j, i ≤ j → j < data.length → eAt data i ≤ eAt data j := by
  intro i j hij hj
  induction hij with
  | refl => exact le_refl _
  | @step j hij ih =>
      have h1 : eAt data i ≤ eAt data j := ih (by omega)
      have h2 : eAt data j ≤ sAt data (j + 1) := h.2 j hj
      have h3 : sAt data (j + 1) ≤ eAt data (j + 1) := h.1 (j + 1) hj
      linarith

/-- The strengthened precondition implies the documented one. -/
theorem strictWF_wellFormed (data : List Entry) (h : strictWF data) :
    wellFormed data :=
  ⟨fun i hi => le_of_lt (h.1 i hi), fun i hi => le_of_eq (h.2 i hi)⟩

/-- Strictly well-formed data has strictly increasing start times. -/
theorem swf_sAt_strictMono (data : List Entry) (h : strictWF data) :
    ∀ i j, i < j → j < data.length → sAt data i < sAt data j := by
  intro i j hij hj
  have h1 : sAt data i < eAt data i := h.1 i (by omega)
  have h2 : eAt data i = sAt data (i + 1) := h.2 i (by omega)
  have h3 : sAt data (i + 1) ≤ sAt data j :=
    wf_sAt_mono data (strictWF_wellFormed data h) (i + 1) j (by omega) hj
  linarith

/-- Strictly well-formed data has strictly increasing end times. -/
theorem swf_eAt_strictMono (data : List Entry) (h : strictWF data) :
    ∀ i j, i < j → j < data.length → eAt data i < eAt data j := by
  intro i j hij hj
  have h2 : eAt data i = sAt data (i + 1) := h.2 i (by omega)
  have h3 : sAt data (i + 1) ≤ sAt data j :=
    wf_sAt_mono data (strictWF_wellFormed data h) (i + 1) j (by omega) hj
  have h4 : sAt data j < eAt data j := h.1 j hj
  linarith

/-- Central equivalence: on well-formed non-empty data, when the fast
rejection does not fire, `inTimeRange` computes exactly the slice described
by the spec's algorithm (`specFilter`). -/
theorem inTimeRange_eq_specFilter (s e : ℚ) (data : List Entry)
    (hwf : wellFormed data) (hne : data ≠ [])
    (hrej : ¬(s ≥ eAt data (data.length - 1) ∨ e ≤ sAt data 0)) :
    inTimeRange s e data = specFilter s e data := by
  have hbs1 := binarySearch_eq (fun d => d.startTime) s data
    (fun i j hij hj => wf_sAt_mono data hwf i j hij hj)
  have hbs2 := binarySearch_eq (fun d => d.endTime) e data
    (fun i j hij hj => wf_eAt_mono data hwf i j hij hj)
  simp only at hbs1 hbs2
  unfold inTimeRange specFilter
  rw [if_neg (by simp [List.isEmpty_iff, hne]), if_neg (by simpa [eAt, sAt] using hrej)]
  rw [hbs1, hbs2]
  by_cases hf1 : lowerBound (fun d => d.startTime) s data < data.length ∧
      (data.getD (lowerBound (fun d => d.startTime) s data) default).startTime = s <;>
    by_cases hf2 : lowerBound (fun d => d.endTime) e data < data.length ∧
        (data.getD (lowerBound (fun d => d.endTime) e data) default).endTime = e <;>
    by_cases hz : lowerBound (fun d => d.startTime) s data = 0 <;>
    simp only [hf1, hf2, hz, if_true, if_false, ite_true, ite_false, if_pos, if_neg,
      not_false_iff, not_true] <;>
    split_ifs <;>
    (try rfl) <;>
    (congr 1 <;> omega)

/-! Membership helpers for indexed reasoning. -/

/-- `getD` agrees with indexing when in bounds. -/
theorem getD_eq_getElem_of_lt (l : List Entry) (i : Nat) (h : i < l.length) :
    l.getD i default = l[i] := by
  simp [List.getD_eq_getElem?_getD, List.getElem?_eq_getElem h]

/-- List membership through `getD`. -/
theorem mem_iff_getD (l : List Entry) (E : Entry) :
    E ∈ l ↔ ∃ k, k < l.length ∧ l.getD k default = E := by
  rw [List.mem_iff_getElem]
  constructor
  · rintro ⟨n, hn, hE⟩
    exact ⟨n, hn, by rw [getD_eq_getElem_of_lt l n hn]; exact hE⟩
  · rintro ⟨n, hn, hE⟩
    exact ⟨n, hn, by rw [← getD_eq_getElem_of_lt l n hn]; exact hE⟩

/-- Membership in a slice: exactly the in-window, in-bounds indices. -/
theorem mem_jsSlice (l : List Entry) (a b : Nat) (E : Entry) :
    E ∈ jsSlice l a b ↔
      ∃ k, a ≤ k ∧ k < b ∧ k < l.length ∧ l.getD k default = E := by
  unfold jsSlice
  rw [List.mem_iff_getElem?]
  constructor
  · rintro ⟨m, hm⟩
    rw [List.getElem?_drop, List.getElem?_take] at hm
    by_cases hab : a + m < b
    · rw [if_pos hab] at hm
      have hlen : a + m < l.length := by
        by_contra hcon
        push_neg at hcon
        rw [List.getElem?_eq_none hcon] at hm
        cases hm
      refine ⟨a + m, by omega, hab, hlen, ?_⟩
      rw [List.getD_eq_getElem?_getD, hm]
      rfl
    · rw [if_neg hab] at hm
      cases hm
  · rintro ⟨k, hak, hkb, hkl, hE⟩
    refine ⟨k - a, ?_⟩
    rw [List.getElem?_drop, List.getElem?_take,
      if_pos (by omega : a + (k - a) < b)]
    have hid : a + (k - a) = k := by omega
    rw [hid, List.getElem?_eq_getElem hkl]
    rw [getD_eq_getElem_of_lt l k hkl] at hE
    rw [hE]

/-- The fast-rejection branch returns the empty list. -/
theorem inTimeRange_nil_of_reject (s e : ℚ) (data : List Entry)
    (h : s ≥ eAt data (data.length - 1) ∨ e ≤ sAt data 0) :
    inTimeRange s e data = [] := by
  simp only [eAt, sAt] at h
  unfold inTimeRange
  by_cases hemp : data.isEmpty = true
  · rw [if_pos hemp]
  · rw [if_neg hemp, if_pos h]

/-- The spec's concrete scenario data is well-formed. -/
theorem wellFormed_data3 : wellFormed data3 := by
  refine ⟨by with_unfolding_all decide, ?_⟩
  intro i hi
  have h2 : i < 2 := by simp [data3] at hi; omega
  interval_cases i <;> with_unfolding_all decide

/-- The spec's concrete scenario data is strictly well-formed. -/
theorem strictWF_data3 : strictWF data3 := by
  refine ⟨by with_unfolding_all decide, ?_⟩
  intro i hi
  have h2 : i < 2 := by simp [data3] at hi; omega
  interval_cases i <;> with_unfolding_all decide

/-- The gapped data satisfies the documented precondition. -/
theorem wellFormed_dataGap : wellFormed dataGap := by
  refine ⟨by with_unfolding_all decide, ?_⟩
  intro i hi
  have h2 : i < 1 := by simp [dataGap] at hi; omega
  interval_cases i
  with_unfolding_all decide

/-- An entry whose boundary coincides with the matching query boundary is
never kept by `inTimeRangeMulti`: the filter predicate tests both
inequalities explicitly. No precondition on the data is needed. -/
theorem inTimeRangeMulti_excludes_touching (s e : ℚ) (data : List Entry) (E : Entry)
    (hcond : e = E.startTime ∨ s = E.endTime) :
    E ∉ inTimeRangeMulti s e data := by
  intro hmem
  unfold inTimeRangeMulti at hmem
  rw [List.mem_filter] at hmem
  obtain ⟨_, hpred⟩ := hmem
  simp only [Bool.and_eq_true, decide_eq_true_eq] at hpred
  rcases hcond with h | h
  · exact hpred.1.2 h
  · exact hpred.2 h

/-- An entry whose boundary coincides with the matching query boundary is
never kept by `inTimeRange`, provided the data is strictly contiguous with
positive-width entries. -/
theorem inTimeRange_excludes_touching (s e : ℚ) (data : List Entry) (E : Entry)
    (hswf : strictWF data) (hcond : e = E.startTime ∨ s = E.endTime) :
    E ∉ inTimeRange s e data := by
  intro hmem
  have hwf := strictWF_wellFormed data hswf
  by_cases hne : data = []
  · subst hne
    cases hmem
  by_cases hrej : s ≥ eAt data (data.length - 1) ∨ e ≤ sAt data 0
  · rw [inTimeRange_nil_of_reject s e data hrej] at hmem
    cases hmem
  · rw [inTimeRange_eq_specFilter s e data hwf hne hrej] at hmem
    simp only [specFilter] at hmem
    rw [mem_jsSlice] at hmem
    obtain ⟨k, hk1, hk2, hk3, hk4⟩ := hmem
    push_neg at hrej
    obtain ⟨hrej1, hrej2⟩ := hrej
    rcases hcond with hce | hcs
    · have hsk : sAt data k = e := by
        unfold sAt
        rw [hk4, ← hce]
      rcases Nat.eq_zero_or_pos k with hk0 | hkpos
      · subst hk0
        rw [hsk] at hrej2
        exact lt_irrefl e hrej2
      · have hcontig : eAt data (k - 1) = sAt data k := by
          have := hswf.2 (k - 1) (by omega)
          rwa [Nat.sub_add_cancel hkpos] at this
        have hlbq : lowerBound (fun d => d.endTime) e data = k - 1 := by
          apply lowerBound_unique
          · omega
          · intro i hi
            have h1 : eAt data i < eAt data (k - 1) :=
              swf_eAt_strictMono data hswf i (k - 1) (by omega) (by omega)
            rw [hcontig, hsk] at h1
            exact h1
          · intro i hge hlt
            have h3 : eAt data (k - 1) ≤ eAt data i := wf_eAt_mono data hwf (k - 1) i hge hlt
            rw [hcontig, hsk] at h3
            exact h3
        rw [hlbq] at hk2
        omega
    · have hek : eAt data k = s := by
        unfold eAt
        rw [hk4, ← hcs]
      rcases Nat.lt_or_ge k (data.length - 1) with hklast | hklast
      · have hkl1 : k + 1 < data.length := by omega
        have hcontig : eAt data k = sAt data (k + 1) := hswf.2 k hkl1
        have hlbp : lowerBound (fun d => d.startTime) s data = k + 1 := by
          apply lowerBound_unique
          · omega
          · intro i hi
            have h1 : sAt data i ≤ sAt data k := wf_sAt_mono data hwf i k (by omega) (by omega)
            have h2 : sAt data k < eAt data k := hswf.1 k (by omega)
            have : sAt data i < eAt data k := lt_of_le_of_lt h1 h2
            rw [hek] at this
            exact this
          · intro i hge hlt
            have h1 : sAt data (k + 1) ≤ sAt data i := wf_sAt_mono data hwf (k + 1) i hge hlt
            rw [← hcontig, hek] at h1
            exact h1
        have hfound : lowerBound (fun d => d.startTime) s data < data.length ∧
            (data.getD (lowerBound (fun d => d.startTime) s data) default).startTime = s := by
          rw [hlbp]
          refine ⟨hkl1, ?_⟩
          show sAt data (k + 1) = s
          rw [← hcontig, hek]
        rw [if_pos hfound, hlbp] at hk1
        omega
      · have hkeq : k = data.length - 1 := by omega
        rw [hkeq] at hek
        rw [← hek] at hrej1
        exact lt_irrefl _ hrej1

/-- C2 counterexample: on the gapped data (entries [0,10) and [20,30),
allowed by the documented precondition since the first end time precedes the
second start time) the query [10, 25) keeps the first entry even though the
query start equals that entry's end time — `inTimeRange` steps back to the
entry before the insertion point, which only touches the query. -/
theorem inTimeRange_touching_included_on_gap :
    wellFormed dataGap ∧
    (⟨0, 10, 0⟩ : Entry) ∈ dataGap ∧
    (10 : ℚ) = (⟨0, 10, 0⟩ : Entry).endTime ∧
    (⟨0, 10, 0⟩ : Entry) ∈ inTimeRange 10 25 dataGap :=
  ⟨wellFormed_dataGap, by decide, by with_unfolding_all rfl,
   by with_unfolding_all decide⟩

/-- C2 (amended): for every entry `E` of the data and query `[s, e)` with
`e = E.startTime` or `s = E.endTime`, `E` is excluded from
`inTimeRangeMulti` (for arbitrary data) and from `inTimeRange` when the data
is strictly contiguous — each entry's end time equal to the next entry's
start time — with positive-width entries. -/
theorem filters_exclude_touching_entries :
    (∀ (s e : ℚ) (data : List Entry) (E : Entry), E ∈ data →
      (e = E.startTime ∨ s = E.endTime) → E ∉ inTimeRangeMulti s e data) ∧
    (∀ (s e : ℚ) (data : List Entry) (E : Entry), strictWF data → E ∈ data →
      (e = E.startTime ∨ s = E.endTime) → E ∉ inTimeRange s e data) :=
  ⟨fun s e data E _ hcond => inTimeRangeMulti_excludes_touching s e data E hcond,
   fun s e data E hswf _ hcond => inTimeRange_excludes_touching s e data E hswf hcond⟩

/-- C2 witness: the entry [10,20) of the scenario data is excluded from both
filter results for the query [0, 10), whose end coincides with the entry's
start. -/
theorem filters_exclude_touching_entries_witness :
    (⟨10, 20, 0⟩ : Entry) ∉ inTimeRangeMulti 0 10 data3 ∧
    (⟨10, 20, 0⟩ : Entry) ∉ inTimeRange 0 10 data3 :=
  ⟨filters_exclude_touching_entries.1 0 10 data3 ⟨10, 20, 0⟩ (by decide)
      (Or.inl (by with_unfolding_all rfl)),
   filters_exclude_touching_entries.2 0 10 data3 ⟨10, 20, 0⟩ strictWF_data3 (by decide)
      (Or.inl (by with_unfolding_all rfl))⟩

/-- Membership in `inTimeRangeMulti` on strictly well-formed data with an
ordered query: the half-open overlap condition, by index. -/
theorem mem_inTimeRangeMulti_iff (s e : ℚ) (data : List Entry) (E : Entry)
    (hswf : strictWF data) (hse : s ≤ e) :
    E ∈ inTimeRangeMulti s e data ↔
      ∃ k, k < data.length ∧ data.getD k default = E ∧
        s < eAt data k ∧ sAt data k < e := by
  unfold inTimeRangeMulti
  rw [List.mem_filter, mem_iff_getD]
  simp only [hasIntersection, mkRange, Bool.and_eq_true, decide_eq_true_eq]
  constructor
  · rintro ⟨⟨k, hk, hkE⟩, ⟨hint, hne1⟩, hne2⟩
    have hw : sAt data k < eAt data k := hswf.1 k hk
    have hsE : sAt data k = E.startTime := by unfold sAt; rw [hkE]
    have heE : eAt data k = E.endTime := by unfold eAt; rw [hkE]
    rw [min_eq_left hse, max_eq_right hse, ← hsE, ← heE,
      min_eq_left (le_of_lt hw), max_eq_right (le_of_lt hw)] at hint
    rw [← hsE] at hne1
    rw [← heE] at hne2
    refine ⟨k, hk, hkE, ?_, ?_⟩
    · have h1 : s ≤ eAt data k :=
        le_trans (le_max_left _ _) (le_trans hint (min_le_right _ _))
      exact lt_of_le_of_ne h1 hne2
    · have h1 : sAt data k ≤ e :=
        le_trans (le_max_right _ _) (le_trans hint (min_le_left _ _))
      exact lt_of_le_of_ne h1 (fun hh => hne1 hh.symm)
  · rintro ⟨k, hk, hkE, h1, h2⟩
    have hw : sAt data k < eAt data k := hswf.1 k hk
    have hsE : sAt data k = E.startTime := by unfold sAt; rw [hkE]
    have heE : eAt data k = E.endTime := by unfold eAt; rw [hkE]
    refine ⟨⟨k, hk, hkE⟩, ⟨?_, ?_⟩, ?_⟩
    · rw [min_eq_left hse, max_eq_right hse, ← hsE, ← heE,
        min_eq_left (le_of_lt hw), max_eq_right (le_of_lt hw)]
      exact max_le (le_min hse (le_of_lt h1)) (le_min (le_of_lt h2) (le_of_lt hw))
    · rw [← hsE]
      exact ne_of_gt h2
    · rw [← heE]
      exact ne_of_lt h1

/-- On strictly well-formed data with the left fast-rejection passed, the
computed start index admits exactly the entries whose end time lies past the
query start. -/
theorem specStart_le_iff (s : ℚ) (data : List Entry) (hswf : strictWF data)
    (hsur1 : s < eAt data (data.length - 1)) :
    ∀ k, k < data.length →
      ((if lowerBound (fun d => d.startTime) s data < data.length ∧
            (data.getD (lowerBound (fun d => d.startTime) s data) default).startTime = s
        then lowerBound (fun d => d.startTime) s data
        else if lowerBound (fun d => d.startTime) s data = 0 then 0
          else lowerBound (fun d => d.startTime) s data - 1) ≤ k
        ↔ s < eAt data k) := by
  intro k hk
  have hwf := strictWF_wellFormed data hswf
  have hple : lowerBound (fun d => d.startTime) s data ≤ data.length :=
    lowerBound_le_length _ _ _
  set p := lowerBound (fun d => d.startTime) s data with hp
  by_cases hf : p < data.length ∧ (data.getD p default).startTime = s
  · rw [if_pos hf]
    have hfs : sAt data p = s := hf.2
    constructor
    · intro hpk
      have h1 : sAt data p < eAt data p := hswf.1 p hf.1
      have h2 : eAt data p ≤ eAt data k := wf_eAt_mono data hwf p k hpk hk
      linarith
    · intro hsk
      by_contra hcon
      push_neg at hcon
      have hcontig : eAt data k = sAt data (k + 1) := hswf.2 k (by omega)
      have h1 : sAt data (k + 1) ≤ sAt data p :=
        wf_sAt_mono data hwf (k + 1) p (by omega) hf.1
      linarith
  · rw [if_neg hf]
    by_cases hz : p = 0
    · rw [if_pos hz]
      have h0n : 0 < data.length := by omega
      have hstop : s ≤ sAt data 0 := by
        have := lowerBound_stop (fun d => d.startTime) s data (by omega)
        rw [← hp, hz] at this
        exact this
      have h1 : sAt data 0 < eAt data 0 := hswf.1 0 h0n
      have h2 : eAt data 0 ≤ eAt data k := wf_eAt_mono data hwf 0 k (Nat.zero_le k) hk
      simp only [Nat.zero_le, true_iff]
      linarith
    · rw [if_neg hz]
      constructor
      · intro hpk
        have hsp1 : s < eAt data (p - 1) := by
          rcases Nat.lt_or_ge (p - 1) (data.length - 1) with hcase | hcase
          · have hpn : p < data.length := by omega
            have hstop : s ≤ sAt data p := by
              have := lowerBound_stop (fun d => d.startTime) s data (by rw [← hp]; exact hpn)
              rw [← hp] at this
              exact this
            have hne2 : sAt data p ≠ s := fun hh => hf ⟨hpn, hh⟩
            have hlt : s < sAt data p :=
              lt_of_le_of_ne hstop (fun hh => hne2 hh.symm)
            have hcontig : eAt data (p - 1) = sAt data p := by
              have := hswf.2 (p - 1) (by omega)
              rwa [Nat.sub_add_cancel (by omega : 1 ≤ p)] at this
            linarith
          · have heq : p - 1 = data.length - 1 := by omega
            rw [heq]
            exact hsur1
        have hmono : eAt data (p - 1) ≤ eAt data k := wf_eAt_mono data hwf (p - 1) k hpk hk
        linarith
      · intro hsk
        by_contra hcon
        push_neg at hcon
        have hcontig : eAt data k = sAt data (k + 1) := hswf.2 k (by omega)
        have hlb : sAt data (k + 1) < s := by
          have := lowerBound_lt (fun d => d.startTime) s data (k + 1) (by omega)
          exact this
        linarith

/-- On strictly well-formed data with the right fast-rejection passed, the
computed (inclusive) end index admits exactly the entries whose start time
lies before the query end. -/
theorem specEnd_le_iff (e : ℚ) (data : List Entry) (hswf : strictWF data)
    (hsur2 : sAt data 0 < e) :
    ∀ k, k < data.length →
      (k ≤ lowerBound (fun d => d.endTime) e data ↔ sAt data k < e) := by
  intro k hk
  have hwf := strictWF_wellFormed data hswf
  set q := lowerBound (fun d => d.endTime) e data with hq
  constructor
  · intro hkq
    rcases Nat.eq_zero_or_pos k with hk0 | hkpos
    · subst hk0
      exact hsur2
    · have hcontig : eAt data (k - 1) = sAt data k := by
        have := hswf.2 (k - 1) (by omega)
        rwa [Nat.sub_add_cancel hkpos] at this
      have hlb : eAt data (k - 1) < e := by
        have := lowerBound_lt (fun d => d.endTime) e data (k - 1) (by omega)
        exact this
      linarith
  · intro hsk
    by_contra hcon
    push_neg at hcon
    have hqn : q < data.length := by omega
    have hstop : e ≤ eAt data q := by
      have := lowerBound_stop (fun d => d.endTime) e data (by rw [← hq]; exact hqn)
      rw [← hq] at this
      exact this
    have hcontig : eAt data q = sAt data (q + 1) := hswf.2 q (by omega)
    have hmono : sAt data (q + 1) ≤ sAt data k := wf_sAt_mono data hwf (q + 1) k (by omega) hk
    linarith

/-- Membership in `inTimeRange` on strictly well-formed data: the same
half-open overlap condition, by index (no ordering of the query bounds is
needed on this side). -/
theorem mem_inTimeRange_iff_strict (s e : ℚ) (data : List Entry) (E : Entry)
    (hswf : strictWF data) :
    E ∈ inTimeRange s e data ↔
      ∃ k, k < data.length ∧ data.getD k default = E ∧
        s < eAt data k ∧ sAt data k < e := by
  have hwf := strictWF_wellFormed data hswf
  by_cases hne : data = []
  · subst hne
    simp [inTimeRange]
  · by_cases hrej : s ≥ eAt data (data.length - 1) ∨ e ≤ sAt data 0
    · rw [inTimeRange_nil_of_reject s e data hrej]
      simp only [List.not_mem_nil, false_iff]
      rintro ⟨k, hk, hkE, h1, h2⟩
      rcases hrej with hr | hr
      · have hmono : eAt data k ≤ eAt data (data.length - 1) :=
          wf_eAt_mono data hwf k (data.length - 1) (by omega) (by omega)
        linarith
      · have hmono : sAt data 0 ≤ sAt data k :=
          wf_sAt_mono data hwf 0 k (Nat.zero_le k) hk
        linarith
    · have hrej2 := hrej
      push_neg at hrej2
      obtain ⟨hsur1, hsur2⟩ := hrej2
      rw [inTimeRange_eq_specFilter s e data hwf hne hrej]
      simp only [specFilter]
      rw [mem_jsSlice]
      constructor
      · rintro ⟨k, hk1, hk2, hk3, hk4⟩
        refine ⟨k, hk3, hk4, ?_, ?_⟩
        · exact (specStart_le_iff s data hswf hsur1 k hk3).mp hk1
        · exact (specEnd_le_iff e data hswf hsur2 k hk3).mp (by omega)
      · rintro ⟨k, hk, hkE, h1, h2⟩
        refine ⟨k, ?_, ?_, hk, hkE⟩
        · exact (specStart_le_iff s data hswf hsur1 k hk).mpr h1
        · have := (specEnd_le_iff e data hswf hsur2 k hk).mpr h2
          omega

/-- C3 counterexample: on the spec's own perfectly contiguous positive-width
data, the inverted query bounds (25, 5) — which the claim's "for all query
bounds" admits — make the two filters disagree: `inTimeRangeMulti`
normalizes the range (the `goog.math.Range` constructor swaps the bounds)
and keeps the first entry, while `inTimeRange` returns nothing. -/
theorem filters_differ_on_inverted_query :
    strictWF data3 ∧ wellFormed data3 ∧
    (⟨0, 10, 0⟩ : Entry) ∈ inTimeRangeMulti 25 5 data3 ∧
    (⟨0, 10, 0⟩ : Entry) ∉ inTimeRange 25 5 data3 :=
  ⟨strictWF_data3, wellFormed_data3, by with_unfolding_all decide,
   by with_unfolding_all decide⟩

/-- C3 (amended): for strictly contiguous positive-width data and ordered
query bounds `s ≤ e`, `inTimeRange` and `inTimeRangeMulti` return the same
set of entries. -/
theorem filters_agree_on_strict_data :
    ∀ (s e : ℚ) (data : List Entry) (E : Entry), strictWF data → s ≤ e →
      (E ∈ inTimeRange s e data ↔ E ∈ inTimeRangeMulti s e data) := by
  intro s e data E hswf hse
  rw [mem_inTimeRange_iff_strict s e data E hswf,
    mem_inTimeRangeMulti_iff s e data E hswf hse]

/-- C3 witness: the agreement applied to the concrete scenario data, the
query (5, 15) and the first entry. -/
theorem filters_agree_on_strict_data_witness :
    (⟨0, 10, 0⟩ : Entry) ∈ inTimeRange 5 15 data3 ↔
      (⟨0, 10, 0⟩ : Entry) ∈ inTimeRangeMulti 5 15 data3 :=
  filters_agree_on_strict_data 5 15 data3 ⟨0, 10, 0⟩ strictWF_data3
    (by with_unfolding_all decide)

/-- C1: for well-formed non-empty data and a query that survives the fast
rejection, `inTimeRange` computes its result exactly by the spec's
algorithm (binary search on start times stepping back one entry on a miss
unless the insertion index is 0; binary search on end times keeping the
insertion index on a miss; slice with inclusive end index); in particular
the spec's concrete scenario holds: on three contiguous ten-unit entries the
query (5, 15) returns entries 0 and 1, (10, 20) returns entry 1, and
(20, 20) returns nothing. -/
theorem inTimeRange_follows_spec_algorithm :
    (∀ (s e : ℚ) (data : List Entry), wellFormed data → data ≠ [] →
      ¬(s ≥ eAt data (data.length - 1) ∨ e ≤ sAt data 0) →
      inTimeRange s e data = specFilter s e data) ∧
    inTimeRange 5 15 data3 = [⟨0, 10, 0⟩, ⟨10, 20, 0⟩] ∧
    inTimeRange 10 20 data3 = [⟨10, 20, 0⟩] ∧
    inTimeRange 20 20 data3 = [] :=
  ⟨fun s e data hwf hne hrej => inTimeRange_eq_specFilter s e data hwf hne hrej,
   by with_unfolding_all rfl, by with_unfolding_all rfl, by with_unfolding_all rfl⟩

/-- C1 witness: the general statement applied to the concrete scenario data
and the query (5, 15), whose hypotheses hold by computation. -/
theorem inTimeRange_follows_spec_algorithm_witness :
    inTimeRange 5 15 data3 = specFilter 5 15 data3 :=
  inTimeRange_follows_spec_algorithm.1 5 15 data3 wellFormed_data3 (by decide)
    (by with_unfolding_all decide)

/-- Any `jsSlice` is a contiguous sub-slice of the underlying list. -/
theorem jsSlice_shape (l : List Entry) (a b : Nat) :
    ∃ i j, i ≤ j ∧ jsSlice l a b = (l.drop i).take (j - i) := by
  refine ⟨a, a + (b - a), by omega, ?_⟩
  unfold jsSlice
  rw [List.drop_take]
  congr 1
  omega

/-- Any `jsSlice` is a sublist of the underlying list. -/
theorem jsSlice_sublist (l : List Entry) (a b : Nat) :
    List.Sublist (jsSlice l a b) l :=
  List.Sublist.trans (List.drop_sublist _ _) (List.take_sublist _ _)

/-- C5: for well-formed data the result of `inTimeRange` is a contiguous
slice of the input (some index window, no gaps, no reordering), and both
filters return subsequences of the input — the same underlying entries, in
order, with nothing altered (the embedding is pure, so no mutation is
possible and none is expressed). -/
theorem inTimeRange_contiguous_slice :
    (∀ (s e : ℚ) (data : List Entry), wellFormed data →
      ∃ i j, i ≤ j ∧ inTimeRange s e data = (data.drop i).take (j - i)) ∧
    (∀ (s e : ℚ) (data : List Entry), List.Sublist (inTimeRange s e data) data) ∧
    (∀ (s e : ℚ) (data : List Entry), List.Sublist (inTimeRangeMulti s e data) data) := by
  have hshape : ∀ (s e : ℚ) (data : List Entry),
      ∃ i j, i ≤ j ∧ inTimeRange s e data = (data.drop i).take (j - i) := by
    intro s e data
    unfold inTimeRange
    split
    · exact ⟨0, 0, le_refl 0, rfl⟩
    · split
      · exact ⟨0, 0, le_refl 0, rfl⟩
      · exact jsSlice_shape data _ _
  refine ⟨fun s e data _ => hshape s e data, ?_, ?_⟩
  · intro s e data
    unfold inTimeRange
    split
    · exact List.nil_sublist data
    · split
      · exact List.nil_sublist data
      · exact jsSlice_sublist data _ _
  · intro s e data
    exact List.filter_sublist data

/-- C5 witness: the slice-shape statement applied to the concrete scenario
data and the query (5, 15). -/
theorem inTimeRange_contiguous_slice_witness :
    ∃ i j, i ≤ j ∧ inTimeRange 5 15 data3 = (data3.drop i).take (j - i) :=
  inTimeRange_contiguous_slice.1 5 15 data3 wellFormed_data3

/-- C4: `inTimeRange` returns the empty sequence on empty input, and on any
non-empty input whose covered span lies entirely outside the query — when
the query start is at or past the last entry's end time, or the query end is
at or before the first entry's start time — via the fast-rejection path that
precedes the binary searches. -/
theorem inTimeRange_boundary_empty :
    (∀ s e : ℚ, inTimeRange s e [] = []) ∧
    (∀ (s e : ℚ) (data : List Entry), data ≠ [] →
      (s ≥ eAt data (data.length - 1) ∨ e ≤ sAt data 0) →
      inTimeRange s e data = []) := by
  constructor
  · intro s e
    rfl
  · intro s e data hne hcond
    simp only [eAt, sAt] at hcond
    unfold inTimeRange
    rw [if_neg (by simp [List.isEmpty_iff, hne]), if_pos hcond]

/-- C4 witness: the theorem applied to the spec's concrete data with a query
starting at the last end time, and with a query ending at the first start
time. -/
theorem inTimeRange_boundary_empty_witness :
    inTimeRange 30 40 data3 = [] ∧ inTimeRange (-5) 0 data3 = [] :=
  ⟨inTimeRange_boundary_empty.2 30 40 data3 (by decide)
      (Or.inl (by with_unfolding_all decide)),
   inTimeRange_boundary_empty.2 (-5) 0 data3 (by decide)
      (Or.inr (by with_unfolding_all decide))⟩

/-! Lemmas about `calculateTotalCharge` (claim C6). -/

/-- The forEach loop fails exactly when some entry has negative duration:
the assertion fires at the first such entry, and there is no other failure
path. -/
theorem totalChargeLoop_eq_none_iff :
    ∀ (data : List Entry) (t : JSNum),
      totalChargeLoop data t = none ↔ ∃ d ∈ data, d.endTime < d.startTime
  | [], t => by simp [totalChargeLoop]
  | d :: rest, t => by
      by_cases h : 0 ≤ d.endTime - d.startTime
      · have ih := totalChargeLoop_eq_none_iff rest
        simp only [totalChargeLoop, if_pos h, ih, List.mem_cons]
        constructor
        · rintro ⟨x, hx, hlt⟩
          exact ⟨x, Or.inr hx, hlt⟩
        · rintro ⟨x, hx | hx, hlt⟩
          · exfalso
            rw [hx] at hlt
            linarith
          · exact ⟨x, hx, hlt⟩
      · simp only [totalChargeLoop, if_neg h]
        constructor
        · intro _
          exact ⟨d, List.mem_cons_self d rest, by linarith [lt_of_not_ge h]⟩
        · intro _
          trivial

/-- When every entry has strictly positive duration, the loop computes the
finite sum of `value * duration-in-seconds`, starting from any finite
accumulator. -/
theorem totalChargeLoop_pos_width :
    ∀ (data : List Entry) (acc : ℚ), (∀ d ∈ data, d.startTime < d.endTime) →
      totalChargeLoop data (JSNum.fin acc) =
        some (JSNum.fin (acc +
          (data.map (fun d => d.value * ((d.endTime - d.startTime) / MSECS_IN_SEC))).sum))
  | [], acc, _ => by simp [totalChargeLoop]
  | d :: rest, acc, h => by
      have hd : d.startTime < d.endTime := h d (List.mem_cons_self d rest)
      have hdur : (0 : ℚ) < d.endTime - d.startTime := by linarith
      have hdur' : d.endTime - d.startTime ≠ 0 := ne_of_gt hdur
      have hz_ne : MSECS_IN_SEC / (d.endTime - d.startTime) ≠ 0 := by
        rw [div_ne_zero_iff]
        exact ⟨by norm_num [MSECS_IN_SEC], hdur'⟩
      have ih := totalChargeLoop_pos_width rest
        (acc + d.value * ((d.endTime - d.startTime) / MSECS_IN_SEC))
        (fun x hx => h x (List.mem_cons_of_mem d hx))
      simp only [totalChargeLoop, if_pos (le_of_lt hdur), if_pos hdur', jsDivFin,
        if_neg hz_ne, jsAdd, List.map_cons, List.sum_cons]
      rw [div_div_eq_mul_div, mul_div_assoc, ih, add_assoc]

/-- C6 counterexample: on the single zero-duration entry
`{startTime: 0, endTime: 0, value: 5}` no assertion fires, but the function
returns `Infinity` (the code divides `value` by the sentinel `hz = 0`),
not the claimed sum `value * duration-in-seconds / 3600 = 0`. -/
theorem calculateTotalCharge_zero_duration_counterexample :
    calculateTotalCharge [⟨0, 0, 5⟩] = some JSNum.posInf ∧
    JSNum.posInf ≠
      JSNum.fin ((((5 : ℚ) * (((0 : ℚ) - 0) / MSECS_IN_SEC))) / (SECS_IN_MIN * MINS_IN_HOUR)) := by
  constructor
  · with_unfolding_all rfl
  · intro h
    cases h

/-- C6 (amended): `calculateTotalCharge` raises an assertion error iff some
entry has `endTime < startTime`; when no entry has negative duration it
returns a number with no other error path, and when every entry has strictly
positive duration that number is the finite sum of
`value * duration-in-seconds` divided by the seconds in an hour.
`calculateTotalChargeFormatted` inherits the raises-iff condition. -/
theorem calculateTotalCharge_spec :
    (∀ data : List Entry,
      calculateTotalCharge data = none ↔ ∃ d ∈ data, d.endTime < d.startTime) ∧
    (∀ data : List Entry, (∀ d ∈ data, d.startTime < d.endTime) →
      calculateTotalCharge data =
        some (JSNum.fin
          ((data.map (fun d => d.value * ((d.endTime - d.startTime) / MSECS_IN_SEC))).sum /
            (SECS_IN_MIN * MINS_IN_HOUR)))) ∧
    (∀ data : List Entry,
      calculateTotalChargeFormatted data = none ↔ ∃ d ∈ data, d.endTime < d.startTime) := by
  have h1 : ∀ data : List Entry,
      calculateTotalCharge data = none ↔ ∃ d ∈ data, d.endTime < d.startTime := by
    intro data
    unfold calculateTotalCharge
    rw [Option.map_eq_none']
    exact totalChargeLoop_eq_none_iff data (JSNum.fin 0)
  refine ⟨h1, ?_, ?_⟩
  · intro data h
    unfold calculateTotalCharge
    rw [totalChargeLoop_pos_width data 0 h]
    have h3600 : (SECS_IN_MIN * MINS_IN_HOUR : ℚ) ≠ 0 := by
      norm_num [SECS_IN_MIN, MINS_IN_HOUR]
    simp [jsDivFin, h3600]
  · intro data
    unfold calculateTotalChargeFormatted
    rw [Option.map_eq_none']
    exact h1 data

/-- C6 witness: the amended theorem applied to a one-entry list with a
one-second positive duration. -/
theorem calculateTotalCharge_spec_witness :
    (calculateTotalCharge [⟨0, 1000, 7⟩] = none ↔
      ∃ d ∈ [(⟨0, 1000, 7⟩ : Entry)], d.endTime < d.startTime) ∧
    calculateTotalCharge [⟨0, 1000, 7⟩] =
      some (JSNum.fin
        ((([(⟨0, 1000, 7⟩ : Entry)].map
          (fun d => d.value * ((d.endTime - d.startTime) / MSECS_IN_SEC))).sum /
          (SECS_IN_MIN * MINS_IN_HOUR)))) :=
  ⟨calculateTotalCharge_spec.1 [⟨0, 1000, 7⟩],
   calculateTotalCharge_spec.2.1 [⟨0, 1000, 7⟩] (by
    intro d hd
    simp only [List.mem_singleton] at hd
    rw [hd]
    with_unfolding_all decide)⟩

/-- C8: `describeBytes` chooses its unit at the 0.5 KB / 0.5 MB / 0.5 GB
thresholds (512, 524288 and 536870912 bytes) and prints two decimals:
512 bytes is the first value formatted in KB, 511 stays in bytes, 1 MiB is
"1.00 MB", and the other two thresholds likewise switch to MB and GB. -/
theorem describeBytes_thresholds :
    describeBytes 512 = "0.50 KB" ∧
    describeBytes 511 = "511.00 bytes" ∧
    describeBytes (1024 * 1024) = "1.00 MB" ∧
    describeBytes 524288 = "0.50 MB" ∧
    describeBytes 536870912 = "0.50 GB" := by
  refine ⟨?_, ?_, ?_, ?_, ?_⟩ <;> with_unfolding_all rfl

/-- Kept characters are still kept after lower-casing. -/
theorem isIDChar_asciiToLower (c : Nat) (h : isIDChar c = true) :
    isIDChar (asciiToLower c) = true := by
  simp only [isIDChar, decide_eq_true_eq] at h ⊢
  unfold asciiToLower
  split
  · left; omega
  · exact h

/-- ASCII lower-casing is idempotent. -/
theorem asciiToLower_idem (c : Nat) : asciiToLower (asciiToLower c) = asciiToLower c := by
  unfold asciiToLower
  by_cases h : 65 ≤ c ∧ c ≤ 90
  · rw [if_pos h, if_neg (by omega)]
  · rw [if_neg h, if_neg h]

/-- C9: `toValidID` is idempotent — applying it twice gives the same string
as applying it once, for every string (of UTF-16 code units). -/
theorem toValidID_idempotent (s : List Nat) : toValidID (toValidID s) = toValidID s := by
  unfold toValidID
  induction s with
  | nil => rfl
  | cons c rest ih =>
      by_cases h : isIDChar c = true
      · have h2 := isIDChar_asciiToLower c h
        simp [List.filter_cons, h, h2, asciiToLower_idem, ih]
      · simp [List.filter_cons, h, ih]

/-- C10: `intersectSegSeg` is symmetric in its two segments, being the
conjunction of the two `intersectLineSeg` tests in both orders. -/
theorem intersectSegSeg_symm (a b c d : ℚ × ℚ) :
    intersectSegSeg a b c d = intersectSegSeg c d a b := by
  unfold intersectSegSeg
  exact Bool.and_comm _ _

end Historian
